import Mathlib

/-!
Verification of the `solpda` PDA-derivation tool (`src/main.rs`).

Rust strings are modelled as lists of their UTF-8 bytes (`List Nat`,
each entry < 256); Rust `&str` slicing, `starts_with`, `ends_with`,
`replace(" ", "")` and `split(",")` are byte-level operations, so this
is a faithful shallow embedding.  The external SHA-256 implementation
(the `sha2` crate) is an opaque 32-byte-output digest; all definitions
that hash take it as an explicit function parameter `H`.  The ed25519
decompression routine of `curve25519-dalek` and the `bs58` base-58
codec are modelled concretely, following those crates' algorithms.
-/

set_option maxRecDepth 100000

namespace Solpda

/-- UTF-8 bytes of a literal (all literals used here are ASCII, where the
UTF-8 encoding is the code point itself). -/
def strBytes (s : String) : List Nat :=
  s.data.map Char.toNat

/-- Rust `str::starts_with` on the byte model. -/
def startsWithBytes (tag s : List Nat) : Bool :=
  s.take tag.length == tag

/-- Rust `str::ends_with` for a single-byte pattern. -/
def endsWithByte (b : Nat) (s : List Nat) : Bool :=
  s.getLast? == some b

/-- Rust `&s[0..(s.len() - 1)]`. -/
def dropLastByte (s : List Nat) : List Nat :=
  s.take (s.length - 1)

/-- Rust `str::replace(" ", "")`: byte 32 is the ASCII space and never a
UTF-8 continuation byte, so removing it byte-wise is exact. -/
def removeSpaces (s : List Nat) : List Nat :=
  s.filter (fun b => b ≠ 32)

/-- Little-endian digits of `n` in base `base`, most significant digit
last and nonzero; `fuel ≥ n` suffices for completeness. -/
def toDigitsLE (base : Nat) : Nat → Nat → List Nat
  | 0, _ => []
  | fuel + 1, n => if n = 0 then [] else n % base :: toDigitsLE base fuel (n / base)

/-- Value of a little-endian digit list. -/
def ofDigitsLE (base : Nat) : List Nat → Nat
  | [] => 0
  | d :: ds => d + base * ofDigitsLE base ds


/-- Rust strips one leading ASCII `+` when parsing an unsigned integer. -/
def stripPlus : List Nat → List Nat
  | [] => []
  | b :: r => if b = 43 then r else b :: r

/-- Rust's checked decimal accumulation for a `w`-bit unsigned integer:
digits are consumed left to right; a non-digit byte is an invalid-digit
error and an accumulator leaving `[0, 2^w)` is an overflow error. -/
def parseUIntDigits (w : Nat) : Nat → List Nat → Except String Nat
  | acc, [] => .ok acc
  | acc, b :: rest =>
    if 48 ≤ b ∧ b ≤ 57 then
      if acc * 10 + (b - 48) < 2 ^ w then
        parseUIntDigits w (acc * 10 + (b - 48)) rest
      else .error "number too large to fit in target type"
    else .error "invalid digit found in string"

/-- Rust `str::parse::<uN>` (`w` bits) on the byte model. -/
def parseUIntE (w : Nat) (s : List Nat) : Except String Nat :=
  match stripPlus s with
  | [] => .error "cannot parse integer from empty string"
  | b :: rest => parseUIntDigits w 0 (b :: rest)

/-- The `Option` view of `parseUIntE`, for the branches of `make_seed`
that `.unwrap()` the parse directly. -/
def parseUInt (w : Nat) (s : List Nat) : Option Nat :=
  (parseUIntE w s).toOption

/-- `u8_list_to_vec`: strip spaces, split on commas, parse every token as
a `u8`, collecting into `Result<Vec<u8>, String>` (first error wins). -/
def u8ListToVec (bytes : List Nat) : Except String (List Nat) :=
  ((removeSpaces bytes).splitOn 44).mapM (parseUIntE 8)

/-- Rust `uN::to_le_bytes` for an `nb`-byte integer. -/
def toLeBytes : Nat → Nat → List Nat
  | 0, _ => []
  | nb + 1, v => v % 256 :: toLeBytes nb (v / 256)

/-- The Bitcoin base-58 alphabet used by the `bs58` crate. -/
def b58Alphabet : List Nat :=
  strBytes "123456789ABCDEFGHJKLMNPQRSTUVWXYZabcdefghijkmnopqrstuvwxyz"

/-- Digit value of one base-58 character byte (the crate's lookup table). -/
def b58Digit (c : Nat) : Option Nat :=
  b58Alphabet.findIdx? (fun b => b == c)

/-- Big-endian numeric value of a byte string. -/
def beNat (l : List Nat) : Nat :=
  l.foldl (fun acc b => acc * 256 + b) 0

/-- `bs58::encode(..).into_string()`: one `'1'` per leading zero byte,
then the base-58 digits of the big-endian value, most significant first. -/
def b58Encode (l : List Nat) : List Nat :=
  List.replicate (l.takeWhile (fun b => b == 0)).length 49
    ++ (toDigitsLE 58 (beNat l) (beNat l)).reverse.map (fun d => b58Alphabet.getD d 0)

/-- `bs58::decode(..).into_vec()`: any byte outside the alphabet is an
error; otherwise one zero byte per leading `'1'`, then the minimal
big-endian bytes of the base-58 value of the whole string. -/
def b58Decode (s : List Nat) : Except String (List Nat) :=
  match s.mapM b58Digit with
  | none => .error "provided string contained invalid character"
  | some ds =>
    let n := ds.foldl (fun acc d => acc * 58 + d) 0
    .ok (List.replicate (s.takeWhile (fun c => c == 49)).length 0
         ++ (toDigitsLE 256 n n).reverse)

/-- `Pubkey::from_str` (the `FromStr` impl at the bottom of `main.rs`):
base-58 decode, then require exactly 32 bytes. -/
def Pubkey.fromStr (s : List Nat) : Except String (List Nat) :=
  match b58Decode s with
  | .error e => .error e
  | .ok v => if v.length = 32 then .ok v else .error "Invalid address"

/-- The `Display` impl for `Pubkey`: `bs58::encode(self.0).into_string()`. -/
def Pubkey.display (b : List Nat) : List Nat :=
  b58Encode b

/-- The seed literal tags of `make_seed`, in source order. -/
def u8Tag : List Nat := strBytes "u8["

def u16Tag : List Nat := strBytes "u16["

def u32Tag : List Nat := strBytes "u32["

def u64Tag : List Nat := strBytes "u64["

def stringTag : List Nat := strBytes "String["

def pubkeyTag : List Nat := strBytes "Pubkey["

def sha256Tag : List Nat := strBytes "Sha256["

/-- Outcome of `make_seed`, whose Rust signature is infallible
(`Vec<u8>`); failures terminate the process instead: `exited` models the
explicit `eprintln! + process::exit(-1)` on an unrecognized literal, and
`panicked` models the `.unwrap()` panics on parse failures. -/
inductive SeedOutcome where
  | ok (bytes : List Nat)
  | exited
  | panicked
deriving DecidableEq

/-- `make_seed`, with explicit recursion fuel; the `Sha256[..]` branch
recurses on a strictly shorter string, so `s.length` fuel suffices
(`makeSeed` below).  `H` is the external SHA-256 digest function. -/
def makeSeedGo (H : List Nat → List Nat) : Nat → List Nat → SeedOutcome
  | 0, _ => .exited
  | fuel + 1, s =>
    if endsWithByte 93 s then
      let s' := dropLastByte s
      if startsWithBytes u8Tag s' then
        match u8ListToVec (s'.drop u8Tag.length) with
        | .ok v => .ok v
        | .error _ => .panicked
      else if startsWithBytes u16Tag s' then
        match ((removeSpaces (s'.drop u16Tag.length)).splitOn 44).mapM (parseUInt 16) with
        | some vs => .ok (vs.map (toLeBytes 2)).flatten
        | none => .panicked
      else if startsWithBytes u32Tag s' then
        match ((removeSpaces (s'.drop u32Tag.length)).splitOn 44).mapM (parseUInt 32) with
        | some vs => .ok (vs.map (toLeBytes 4)).flatten
        | none => .panicked
      else if startsWithBytes u64Tag s' then
        match ((removeSpaces (s'.drop u64Tag.length)).splitOn 44).mapM (parseUInt 64) with
        | some vs => .ok (vs.map (toLeBytes 8)).flatten
        | none => .panicked
      else if startsWithBytes stringTag s' then
        .ok (s'.drop stringTag.length)
      else if startsWithBytes pubkeyTag s' then
        match Pubkey.fromStr (s'.drop pubkeyTag.length) with
        | .ok v => .ok v
        | .error _ => .panicked
      else if startsWithBytes sha256Tag s' then
        match makeSeedGo H fuel (s'.drop sha256Tag.length) with
        | .ok b => .ok (H b)
        | o => o
      else .exited
    else .exited

/-- `make_seed` on a byte string. -/
def makeSeed (H : List Nat → List Nat) (s : List Nat) : SeedOutcome :=
  makeSeedGo H s.length s

/-- The field prime of Curve25519, `2^255 - 19`. -/
def p25519 : Nat := 2 ^ 255 - 19

/-- Binary modular exponentiation, structurally recursive on a fuel bound
for the exponent's bit length. -/
def powModFuel : Nat → Nat → Nat → Nat → Nat
  | 0, _, _, m => 1 % m
  | fuel + 1, b, e, m =>
    if e = 0 then 1 % m
    else
      let r := powModFuel fuel (b * b % m) (e / 2) m
      if e % 2 = 1 then r * b % m else r

def edwardsD : Nat :=
  37095705934669439343138083508754565189542113879843219016388785533085940283555

/-- `sqrt(-1)` in the field, as in `curve25519_dalek::constants::SQRT_M1`. -/
def sqrtM1 : Nat :=
  19681161376707505956807079304988542015446066515923890162744021073123829784752

/-- `x^((p-5)/8) mod p`, dalek's `FieldElement::pow_p58`. -/
def powP58 (x : Nat) : Nat :=
  powModFuel 300 x ((p25519 - 5) / 8) p25519

/-- The check-and-adjust step of `sqrt_ratio_i`, given the candidate
root `r0`: compare `v*r0^2` against `u`, `-u` and `-u*sqrt(-1)`, flip
the root by `sqrt(-1)` in the latter two cases, and return its absolute
value together with the was-square flag. -/
def sqrtAdjust (u v r0 : Nat) : Bool × Nat :=
  let P := p25519
  let check := v * (r0 * r0 % P) % P
  let correctSign := check = u % P
  let flippedSign := check = (P - u % P) % P
  let flippedSignI := check = (P - u % P) % P * sqrtM1 % P
  let r1 := if flippedSign || flippedSignI then r0 * sqrtM1 % P else r0
  let r2 := if r1 % 2 = 1 then (P - r1) % P else r1
  (correctSign || flippedSign, r2)

/-- `FieldElement::sqrt_ratio_i(u, v)`: returns whether `u/v` has a
square root and the nonnegative root (of `i*u/v` when it does not).
Field elements are canonical residues `< p25519`. -/
def sqrtRatioI (u v : Nat) : Bool × Nat :=
  let P := p25519
  let v3 := v * v % P * v % P
  let v7 := v3 * v3 % P * v % P
  let r0 := u * v3 % P * powP58 (u * v7 % P) % P
  sqrtAdjust u v r0

/-- `CompressedEdwardsY::decompress`: read the `y` coordinate from the
low 255 bits of the little-endian value, recover `x` from the curve
equation via `sqrt_ratio_i`, and negate per the sign bit (bit 255). -/
def decompress (s : List Nat) : Option (Nat × Nat × Nat × Nat) :=
  let P := p25519
  let y := ofDigitsLE 256 s % 2 ^ 255 % P
  let yy := y * y % P
  let u := (yy + (P - 1)) % P
  let v := (yy * edwardsD % P + 1) % P
  match sqrtRatioI u v with
  | (false, _) => none
  | (true, x0) =>
    let x := if s.getD 31 0 / 128 % 2 = 1 then (P - x0) % P else x0
    some (x, y, 1, x * y % P)

/-- `CompressedEdwardsY::from_slice` copies exactly 32 bytes and panics
(`none`) on any other length. -/
def fromSlice32 (b : List Nat) : Option (List Nat) :=
  if b.length = 32 then some b else none

/-- `bytes_are_curve_point`: `none` models the (unreachable for 32-byte
inputs) `from_slice` panic; `some r` is the boolean result. -/
def bytesAreCurvePoint (b : List Nat) : Option Bool :=
  (fromSlice32 b).map (fun c => (decompress c).isSome)

/-- The boolean view of `bytes_are_curve_point` used inside
`try_find_pda`, where the input is the 32-byte SHA-256 digest and the
`from_slice` panic cannot fire. -/
def curvePointB (b : List Nat) : Bool :=
  (bytesAreCurvePoint b).getD false

/-- The fixed ASCII domain-separation tag `b"ProgramDerivedAddress"`. -/
def pdaMarker : List Nat := strBytes "ProgramDerivedAddress"

/-- `sha2::Sha256::new()`: the hasher state is the byte stream absorbed
so far. -/
def Sha256.empty : List Nat := []

/-- `Sha256::update`: absorb more bytes. -/
def Sha256.update (h data : List Nat) : List Nat := h ++ data

/-- `Sha256::finalize`, with the digest function `H` itself external
(SHA-256 always yields 32 bytes). -/
def Sha256.finalize (H : List Nat → List Nat) (h : List Nat) : List Nat := H h

/-- The specification-side hash input: the concatenation
`seed ‖ bump? ‖ program address ‖ "ProgramDerivedAddress"` with the bump
contributing exactly one byte exactly when present. -/
def hashInput (seed : List Nat) (bumpSeed : Option Nat) (pubkey : List Nat) : List Nat :=
  seed ++ (match bumpSeed with | some b => [b] | none => []) ++ pubkey ++ pdaMarker

/-- `try_find_pda`: stream seed, optional bump byte, program address and
domain tag into the hasher; the digest is the candidate, `none` when it
is on the curve.  (The source's `try_from(...).unwrap()` cannot fail:
SHA-256 digests are 32 bytes.) -/
def tryFindPda (H : List Nat → List Nat) (pubkey seed : List Nat)
    (bumpSeed : Option Nat) : Option (List Nat) :=
  let h := Sha256.empty
  let h := Sha256.update h seed
  let h := match bumpSeed with
    | some b => Sha256.update h [b]
    | none => h
  let h := Sha256.update h pubkey
  let h := Sha256.update h pdaMarker
  let hash := Sha256.finalize H h
  if curvePointB hash then none else some hash

/-- The `while bump_seed >= 0` loop of `find_pda`; the argument is the
number of candidates still to try, so `findPdaLoop n` first tries bump
`n - 1` and counts down to `0`. -/
def findPdaLoop (H : List Nat → List Nat) (programId seed : List Nat) :
    Nat → Option (List Nat × Nat)
  | 0 => none
  | n + 1 =>
    match tryFindPda H programId seed (some n) with
    | some pubkey => some (pubkey, n)
    | none => findPdaLoop H programId seed n

/-- `find_pda`: no-bump mode is a single attempt (with dummy bump `0` in
the returned pair); bump mode starts the counter at 255 and works down. -/
def findPda (H : List Nat → List Nat) (programId seed : List Nat)
    (noBumpSeed : Bool) : Option (List Nat × Nat) :=
  if noBumpSeed then
    (tryFindPda H programId seed none).map (fun pk => (pk, 0))
  else
    findPdaLoop H programId seed 256

theorem tryFindPda_eq (H : List Nat → List Nat) (pubkey seed : List Nat)
    (bumpSeed : Option Nat) :
    tryFindPda H pubkey seed bumpSeed =
      if curvePointB (H (hashInput seed bumpSeed pubkey)) then none
      else some (H (hashInput seed bumpSeed pubkey)) := by
  cases bumpSeed <;>
    simp [tryFindPda, hashInput, Sha256.empty, Sha256.update, Sha256.finalize,
      List.append_assoc]

/-- Digest of the candidate at bump `b`, as an abbreviation for lemmas. -/
def candidateAt (H : List Nat → List Nat) (programId seed : List Nat) (b : Nat) :
    List Nat :=
  H (hashInput seed (some b) programId)

/-- The four unsigned integer-list widths of the seed grammar. -/
inductive IntWidth where
  | w8
  | w16
  | w32
  | w64
deriving DecidableEq

/-- Bit width `W`. -/
def IntWidth.bits : IntWidth → Nat
  | .w8 => 8
  | .w16 => 16
  | .w32 => 32
  | .w64 => 64

/-- Byte width `W / 8`. -/
def IntWidth.nbytes : IntWidth → Nat
  | .w8 => 1
  | .w16 => 2
  | .w32 => 4
  | .w64 => 8

/-- The literal tag of each width. -/
def IntWidth.tag : IntWidth → List Nat
  | .w8 => u8Tag
  | .w16 => u16Tag
  | .w32 => u32Tag
  | .w64 => u64Tag

/-- The integer-list branch of `make_seed` as a function of the
space-stripped payload (the `u8` branch goes through `u8_list_to_vec`,
the wider ones parse inline and serialize little-endian). -/
def intBranch (cleaned : List Nat) : IntWidth → SeedOutcome
  | .w8 =>
    match (cleaned.splitOn 44).mapM (parseUIntE 8) with
    | .ok v => .ok v
    | .error _ => .panicked
  | .w16 =>
    match (cleaned.splitOn 44).mapM (parseUInt 16) with
    | some vs => .ok (vs.map (toLeBytes 2)).flatten
    | none => .panicked
  | .w32 =>
    match (cleaned.splitOn 44).mapM (parseUInt 32) with
    | some vs => .ok (vs.map (toLeBytes 4)).flatten
    | none => .panicked
  | .w64 =>
    match (cleaned.splitOn 44).mapM (parseUInt 64) with
    | some vs => .ok (vs.map (toLeBytes 8)).flatten
    | none => .panicked

/-- Decimal rendering of a numeric seed value (ASCII digit bytes). -/
def natToDec (n : Nat) : List Nat :=
  if n = 0 then [48] else (toDigitsLE 10 n n).reverse.map (fun d => d + 48)

theorem ofDigitsLE_toDigitsLE (base : Nat) (hb : 2 ≤ base) :
    ∀ fuel n, n ≤ fuel → ofDigitsLE base (toDigitsLE base fuel n) = n := by
  intro fuel
  induction fuel with
  | zero => intro n hn; interval_cases n; simp [toDigitsLE, ofDigitsLE]
  | succ f ih =>
    intro n hn
    by_cases h0 : n = 0
    · simp [toDigitsLE, h0, ofDigitsLE]
    · rw [toDigitsLE, if_neg h0, ofDigitsLE, ih (n / base)]
      · exact Nat.mod_add_div n base
      · calc n / base ≤ n / 2 := Nat.div_le_div_left hb (by omega)
          _ ≤ f := by omega

theorem toDigitsLE_lt (base : Nat) (hb : 0 < base) :
    ∀ fuel n, ∀ d ∈ toDigitsLE base fuel n, d < base := by
  intro fuel
  induction fuel with
  | zero => intro n d hd; simp [toDigitsLE] at hd
  | succ f ih =>
    intro n d hd
    rw [toDigitsLE] at hd
    by_cases h0 : n = 0
    · simp [h0] at hd
    · rw [if_neg h0] at hd
      rcases List.mem_cons.mp hd with h | h
      · exact h ▸ Nat.mod_lt _ hb
      · exact ih _ _ h

theorem toDigitsLE_zero (base fuel : Nat) : toDigitsLE base fuel 0 = [] := by
  cases fuel <;> simp [toDigitsLE]

theorem toDigitsLE_eq_nil_iff (base : Nat) (fuel n : Nat) (hn : n ≤ fuel) :
    toDigitsLE base fuel n = [] ↔ n = 0 := by
  constructor
  · intro h
    cases fuel with
    | zero => omega
    | succ f =>
      by_contra h0
      rw [toDigitsLE, if_neg h0] at h
      exact List.cons_ne_nil _ _ h
  · intro h; rw [h, toDigitsLE_zero]

theorem div_le_of_le_succ {n base f : Nat} (hb : 2 ≤ base) (hn : n ≤ f + 1) :
    n / base ≤ f := by
  have h1 : n / base ≤ n / 2 := Nat.div_le_div_left hb (by omega)
  have h2 : n / 2 ≤ (f + 1) / 2 := Nat.div_le_div_right hn
  omega

theorem toDigitsLE_getLast?_ne_zero (base : Nat) (hb : 2 ≤ base) :
    ∀ fuel n, n ≤ fuel → toDigitsLE base fuel n ≠ [] →
      (toDigitsLE base fuel n).getLast? ≠ some 0 := by
  intro fuel
  induction fuel with
  | zero => intro n hn h; simp [toDigitsLE] at h
  | succ f ih =>
    intro n hn h
    by_cases h0 : n = 0
    · rw [h0, toDigitsLE_zero] at h; exact absurd rfl h
    rw [toDigitsLE, if_neg h0] at h ⊢
    have hdivf : n / base ≤ f := div_le_of_le_succ hb hn
    rcases h' : toDigitsLE base f (n / base) with _ | ⟨d, ds⟩
    · have hdiv0 : n / base = 0 := (toDigitsLE_eq_nil_iff base f _ hdivf).mp h'
      have hlt : n < base := (Nat.div_eq_zero_iff (by omega)).mp hdiv0
      rw [List.getLast?_singleton, Nat.mod_eq_of_lt hlt]
      simpa using h0
    · rw [List.getLast?_cons_cons]
      have := ih (n / base) hdivf (by rw [h']; exact List.cons_ne_nil _ _)
      rwa [h'] at this

theorem ofDigitsLE_eq_zero (base : Nat) (hb : 1 ≤ base) :
    ∀ ds : List Nat, ofDigitsLE base ds = 0 → ∀ d ∈ ds, d = 0 := by
  intro ds
  induction ds with
  | nil => simp
  | cons d ds ih =>
    intro h e he
    rw [ofDigitsLE] at h
    have hd : d = 0 := by omega
    have hds : ofDigitsLE base ds = 0 := by
      rcases Nat.eq_zero_of_add_eq_zero_left h with h'
      rcases Nat.mul_eq_zero.mp h' with h'' | h'' <;> omega
    rcases List.mem_cons.mp he with h' | h'
    · omega
    · exact ih hds e h'

/-- Uniqueness of base-`base` representations: converting the value of a
bounded digit list with nonzero most-significant digit back to digits
recovers the list. -/
theorem toDigitsLE_ofDigitsLE (base : Nat) (hb : 2 ≤ base) :
    ∀ ds : List Nat, (∀ d ∈ ds, d < base) → ds.getLast? ≠ some 0 →
      ∀ fuel, ofDigitsLE base ds ≤ fuel →
        toDigitsLE base fuel (ofDigitsLE base ds) = ds := by
  intro ds
  induction ds with
  | nil => intro _ _ fuel _; rw [ofDigitsLE, toDigitsLE_zero]
  | cons d ds ih =>
    intro hlt hlast fuel hfuel
    have hdlt : d < base := hlt d (List.mem_cons_self _ _)
    have hv : ofDigitsLE base (d :: ds) = d + base * ofDigitsLE base ds := rfl
    have hne : ofDigitsLE base (d :: ds) ≠ 0 := by
      intro h0
      have hall := ofDigitsLE_eq_zero base (by omega) _ h0
      rcases ds with _ | ⟨e, es⟩
      · exact hlast (by simpa [List.getLast?_singleton] using hall d (by simp))
      · have hne' : (e :: es) ≠ ([] : List Nat) := List.cons_ne_nil _ _
        rcases List.getLast?_eq_getLast (e :: es) hne' with hgl
        apply hlast
        rw [List.getLast?_cons_cons, hgl]
        have : (e :: es).getLast hne' ∈ (e :: es) := List.getLast_mem hne'
        have := hall _ (List.mem_cons_of_mem d this)
        rw [this]
    rcases fuel with _ | f
    · omega
    rw [toDigitsLE, if_neg hne, hv]
    have hmod : (d + base * ofDigitsLE base ds) % base = d := by
      rw [Nat.add_mul_mod_self_left, Nat.mod_eq_of_lt hdlt]
    have hdiv : (d + base * ofDigitsLE base ds) / base = ofDigitsLE base ds := by
      rw [Nat.add_mul_div_left _ _ (by omega), Nat.div_eq_of_lt hdlt, Nat.zero_add]
    rw [hmod, hdiv]
    by_cases hds : ds = []
    · subst hds
      rw [ofDigitsLE, toDigitsLE_zero]
    · have hfds : ofDigitsLE base ds ≤ f := by
        rw [hv] at hfuel
        have h1 : 1 ≤ base := by omega
        by_cases hz : ofDigitsLE base ds = 0
        · omega
        · have : 2 * ofDigitsLE base ds ≤ base * ofDigitsLE base ds :=
            Nat.mul_le_mul_right _ hb
          omega
      have hlast' : ds.getLast? ≠ some 0 := by
        rcases ds with _ | ⟨e, es⟩
        · exact absurd rfl hds
        · rwa [List.getLast?_cons_cons] at hlast
      rw [ih (fun e he => hlt e (List.mem_cons_of_mem d he)) hlast' f hfds]

theorem foldl_reverse_ofDigitsLE (base : Nat) :
    ∀ (ds : List Nat) (acc : Nat),
      List.foldl (fun a d => a * base + d) acc ds.reverse =
        acc * base ^ ds.length + ofDigitsLE base ds := by
  intro ds
  induction ds with
  | nil => intro acc; simp [ofDigitsLE]
  | cons d ds ih =>
    intro acc
    rw [List.reverse_cons, List.foldl_append, ih acc]
    simp only [List.foldl_cons, List.foldl_nil, ofDigitsLE, List.length_cons]
    ring
theorem powModFuel_correct (m : Nat) :
    ∀ fuel b e, e < 2 ^ fuel → powModFuel fuel b e m = b ^ e % m := by
  intro fuel
  induction fuel with
  | zero =>
    intro b e he
    interval_cases e
    simp [powModFuel]
  | succ f ih =>
    intro b e he
    rw [powModFuel]
    by_cases h0 : e = 0
    · simp [h0]
    rw [if_neg h0, ih (b * b % m) (e / 2) (by
      have : e < 2 * 2 ^ f := by rw [Nat.pow_succ] at he; omega
      omega)]
    have hbb : (b * b % m) ^ (e / 2) % m = b ^ (2 * (e / 2)) % m := by
      rw [← Nat.pow_mod, ← Nat.pow_two, ← Nat.pow_mul]
    by_cases hodd : e % 2 = 1
    · rw [if_pos hodd, hbb, Nat.mod_mul_mod, ← Nat.pow_succ]
      have h2 : (2 * (e / 2)).succ = e := by omega
      rw [h2]
    · rw [if_neg hodd, hbb]
      have h2 : 2 * (e / 2) = e := by omega
      rw [h2]

/-- The curve constant `d = -121665/121666` of edwards25519, as in
`curve25519_dalek::constants::EDWARDS_D`. -/
theorem findPdaLoop_found (H : List Nat → List Nat) (programId seed : List Nat)
    (b1 : Nat) (hoff : curvePointB (candidateAt H programId seed b1) = false) :
    ∀ n, b1 < n →
      ∃ pk b, findPdaLoop H programId seed n = some (pk, b) ∧
        b1 ≤ b ∧ b < n ∧ pk = candidateAt H programId seed b ∧
        curvePointB pk = false ∧
        ∀ b', b < b' → b' < n →
          curvePointB (candidateAt H programId seed b') = true := by
  intro n
  induction n with
  | zero => intro h; omega
  | succ n ih =>
    intro hlt
    rw [findPdaLoop, tryFindPda_eq]
    by_cases hn : curvePointB (H (hashInput seed (some n) programId)) = true
    · have hb1n : b1 < n := by
        rcases Nat.lt_succ_iff_lt_or_eq.mp hlt with h | h
        · exact h
        · rw [h] at hoff
          simp only [candidateAt] at hoff
          rw [hoff] at hn
          exact absurd hn (by simp)
      obtain ⟨pk, b, h1, h2, h3, h4, h5, h6⟩ := ih hb1n
      refine ⟨pk, b, ?_, h2, by omega, h4, h5, ?_⟩
      · simpa [hn] using h1
      · intro b' hb' hb'n
        rcases Nat.lt_succ_iff_lt_or_eq.mp hb'n with h | h
        · exact h6 b' hb' h
        · rw [h]
          exact hn
    · have hn' : curvePointB (H (hashInput seed (some n) programId)) = false := by
        simpa using hn
      refine ⟨candidateAt H programId seed n, n, ?_, by omega, by omega, rfl,
        hn', ?_⟩
      · simp [hn', candidateAt]
      · intro b' hb' hb'n; omega

theorem findPdaLoop_none (H : List Nat → List Nat) (programId seed : List Nat) :
    ∀ n, (∀ b, b < n → curvePointB (candidateAt H programId seed b) = true) →
      findPdaLoop H programId seed n = none := by
  intro n
  induction n with
  | zero => intro _; rfl
  | succ n ih =>
    intro hall
    rw [findPdaLoop, tryFindPda_eq]
    have hn := hall n (by omega)
    simp only [candidateAt] at hn
    simp [hn]
    exact ih fun b hb => hall b (by omega)

/-- C1: for every seed byte sequence, optional bump byte and program
address, the candidate digest of `try_find_pda` is a single SHA-256 hash
of the concatenation, in this order: the seed bytes, then the bump byte
(exactly one byte, only when present), then the raw program address
bytes, then the fixed ASCII tag `"ProgramDerivedAddress"` (whose bytes
are pinned in the second conjunct). -/
theorem claim_C1 (H : List Nat → List Nat) (pubkey seed : List Nat)
    (bumpSeed : Option Nat) :
    tryFindPda H pubkey seed bumpSeed =
      (if curvePointB (H (hashInput seed bumpSeed pubkey)) then none
       else some (H (hashInput seed bumpSeed pubkey)))
    ∧ hashInput seed bumpSeed pubkey =
        seed ++ (match bumpSeed with | some b => [b] | none => []) ++ pubkey ++
          [80, 114, 111, 103, 114, 97, 109, 68, 101, 114, 105, 118, 101, 100,
           65, 100, 100, 114, 101, 115, 115] := by
  refine ⟨tryFindPda_eq H pubkey seed bumpSeed, ?_⟩
  cases bumpSeed <;> rfl

/-- C2: in bump-search mode the candidates are tried in strictly
descending order from 255 down to 0 inclusive, stopping at the first
off-curve digest: whenever `b1 > b2` are both ≤ 255 and both yield
off-curve digests, the search returns a pair whose bump is at least `b1`
(hence never `b2`), whose address is that bump's digest, off-curve, and
every larger candidate up to 255 was on-curve. -/
theorem claim_C2 (H : List Nat → List Nat) (programId seed : List Nat)
    (b1 b2 : Nat) (hb1 : b1 ≤ 255) (h12 : b2 < b1)
    (off1 : curvePointB (H (hashInput seed (some b1) programId)) = false)
    (off2 : curvePointB (H (hashInput seed (some b2) programId)) = false) :
    ∃ pk b, findPda H programId seed false = some (pk, b) ∧
      b1 ≤ b ∧ b ≠ b2 ∧ b ≤ 255 ∧
      pk = H (hashInput seed (some b) programId) ∧
      curvePointB pk = false ∧
      ∀ b', b < b' → b' ≤ 255 →
        curvePointB (H (hashInput seed (some b') programId)) = true := by
  obtain ⟨pk, b, h1, h2, h3, h4, h5, h6⟩ :=
    findPdaLoop_found H programId seed b1 off1 256 (by omega)
  exact ⟨pk, b, h1, h2, by omega, by omega, h4, h5,
    fun b' hb' hb'255 => h6 b' hb' (by omega)⟩

theorem claim_C2_witness :
    (5 : Nat) ≤ 255 ∧ (3 : Nat) < 5 ∧
    curvePointB ((fun _ => 2 :: List.replicate 31 0) (hashInput [] (some 5) [])) = false ∧
    curvePointB ((fun _ => 2 :: List.replicate 31 0) (hashInput [] (some 3) [])) = false ∧
    (∃ pk b, findPda (fun _ => 2 :: List.replicate 31 0) [] [] false = some (pk, b) ∧
      5 ≤ b ∧ b ≠ 3 ∧ b ≤ 255 ∧
      pk = (fun _ => 2 :: List.replicate 31 0) (hashInput [] (some b) []) ∧
      curvePointB pk = false ∧
      ∀ b', b < b' → b' ≤ 255 →
        curvePointB ((fun _ => 2 :: List.replicate 31 0) (hashInput [] (some b') [])) = true) :=
  ⟨by omega, by omega, by decide, by decide,
    claim_C2 (fun _ => 2 :: List.replicate 31 0) [] [] 5 3 (by omega) (by omega)
      (by decide) (by decide)⟩

/-- C4: in bump-search mode, if all 256 candidate digests are on-curve,
the search terminates with the distinct `NotFound` outcome (`none`, a
value of the result type, not a panic, distinct from the `String` errors
of the parsing layer). -/
theorem claim_C4 (H : List Nat → List Nat) (programId seed : List Nat)
    (hall : ∀ b, b ≤ 255 → curvePointB (H (hashInput seed (some b) programId)) = true) :
    findPda H programId seed false = none := by
  exact findPdaLoop_none H programId seed 256 fun b hb => hall b (by omega)

theorem curvePointB_zeros : curvePointB (List.replicate 32 0) = true := by decide

theorem claim_C4_witness :
    (∀ b : Nat, b ≤ 255 →
      curvePointB ((fun _ => List.replicate 32 0) (hashInput [] (some b) [])) = true) ∧
    findPda (fun _ => List.replicate 32 0) [] [] false = none :=
  ⟨fun _ _ => curvePointB_zeros,
    claim_C4 (fun _ => List.replicate 32 0) [] [] fun _ _ => curvePointB_zeros⟩

/-- C3: in no-bump mode the search is a single attempt with the bump
byte absent, yielding `Found` (paired with the dummy bump `0` the source
inserts) exactly when the digest is off-curve and `NotFound` otherwise;
and the hashed byte sequence is one byte shorter than in any
bump-present attempt. -/
theorem claim_C3 (H : List Nat → List Nat) (programId seed : List Nat) :
    findPda H programId seed true =
      (if curvePointB (H (hashInput seed none programId)) then none
       else some (H (hashInput seed none programId), 0))
    ∧ ∀ b : Nat,
        (hashInput seed none programId).length + 1 =
          (hashInput seed (some b) programId).length := by
  constructor
  · rw [findPda, if_pos rfl, tryFindPda_eq]
    by_cases h : curvePointB (H (hashInput seed none programId)) = true
    · simp [h]
    · simp only [Bool.not_eq_true] at h
      simp [h]
  · intro b
    simp [hashInput]
    omega

theorem endsWithByte_append (l : List Nat) (b : Nat) :
    endsWithByte b (l ++ [b]) = true := by
  simp [endsWithByte]

theorem dropLastByte_append (l : List Nat) (b : Nat) :
    dropLastByte (l ++ [b]) = l := by
  unfold dropLastByte
  rw [List.length_append, List.length_singleton, Nat.add_sub_cancel, List.take_left]

theorem dropLastByte_length (s : List Nat) :
    (dropLastByte s).length = s.length - 1 := by
  simp [dropLastByte]

theorem startsWithBytes_same (t r : List Nat) :
    startsWithBytes t (t ++ r) = true := by
  simp [startsWithBytes, List.take_left]

theorem startsWithBytes_ne (t a r : List Nat) (hlen : t.length ≤ a.length)
    (hne : a.take t.length ≠ t) :
    startsWithBytes t (a ++ r) = false := by
  simp only [startsWithBytes, List.take_append_of_le_length hlen, beq_eq_false_iff_ne,
    ne_eq]
  exact hne

theorem startsWithBytes_length_le (t s : List Nat)
    (h : startsWithBytes t s = true) : t.length ≤ s.length := by
  simp only [startsWithBytes, beq_iff_eq] at h
  have := congrArg List.length h
  simp only [List.length_take] at this
  omega

theorem endsWithByte_ne_nil (b : Nat) (s : List Nat)
    (h : endsWithByte b s = true) : s ≠ [] := by
  intro h0
  subst h0
  simp [endsWithByte] at h

theorem makeSeedGo_fuel (H : List Nat → List Nat) :
    ∀ f (s : List Nat) g, s.length ≤ f → s.length ≤ g →
      makeSeedGo H f s = makeSeedGo H g s := by
  intro f
  induction f with
  | zero =>
    intro s g hf hg
    have hs : s = [] := List.length_eq_zero.mp (by omega)
    subst hs
    cases g with
    | zero => rfl
    | succ g' => rfl
  | succ f ih =>
    intro s g hf hg
    cases g with
    | zero =>
      have hs : s = [] := List.length_eq_zero.mp (by omega)
      subst hs
      rfl
    | succ g' =>
      by_cases h93 : endsWithByte 93 s = true
      · by_cases h1 : startsWithBytes u8Tag (dropLastByte s) = true
        · simp [makeSeedGo, h93, h1]
        · by_cases h2 : startsWithBytes u16Tag (dropLastByte s) = true
          · simp [makeSeedGo, h93, h1, h2]
          · by_cases h3 : startsWithBytes u32Tag (dropLastByte s) = true
            · simp [makeSeedGo, h93, h1, h2, h3]
            · by_cases h4 : startsWithBytes u64Tag (dropLastByte s) = true
              · simp [makeSeedGo, h93, h1, h2, h3, h4]
              · by_cases h5 : startsWithBytes stringTag (dropLastByte s) = true
                · simp [makeSeedGo, h93, h1, h2, h3, h4, h5]
                · by_cases h6 : startsWithBytes pubkeyTag (dropLastByte s) = true
                  · simp [makeSeedGo, h93, h1, h2, h3, h4, h5, h6]
                  · by_cases h7 : startsWithBytes sha256Tag (dropLastByte s) = true
                    · have hs1 : s.length ≥ 1 :=
                        List.length_pos.mpr (endsWithByte_ne_nil 93 s h93)
                      have hs7 : sha256Tag.length ≤ (dropLastByte s).length :=
                        startsWithBytes_length_le _ _ h7
                      rw [dropLastByte_length] at hs7
                      have hlen7 : sha256Tag.length = 7 := by decide
                      have hinner :
                          ((dropLastByte s).drop sha256Tag.length).length =
                            s.length - 8 := by
                        rw [List.length_drop, dropLastByte_length, hlen7]
                        omega
                      have hrec :
                          makeSeedGo H f ((dropLastByte s).drop sha256Tag.length) =
                            makeSeedGo H g' ((dropLastByte s).drop sha256Tag.length) := by
                        apply ih
                        · rw [hinner]; omega
                        · rw [hinner]; omega
                      simp [makeSeedGo, h93, h1, h2, h3, h4, h5, h6, h7, hrec]
                    · simp [makeSeedGo, h93, h1, h2, h3, h4, h5, h6, h7]
      · simp [makeSeedGo, h93]

theorem makeSeed_append93 (H : List Nat → List Nat) (l : List Nat) :
    makeSeed H (l ++ [93]) = makeSeedGo H (l.length + 1) (l ++ [93]) := by
  rw [makeSeed]
  congr 1
  simp

theorem makeSeed_intLit (H : List Nat → List Nat) (W : IntWidth) (p : List Nat) :
    makeSeed H (W.tag ++ p ++ [93]) = intBranch (removeSpaces p) W := by
  cases W with
  | w8 =>
    simp only [IntWidth.tag]
    rw [makeSeed_append93]
    unfold makeSeedGo
    rw [endsWithByte_append (u8Tag ++ p) 93, if_pos rfl, dropLastByte_append]
    dsimp only
    rw [startsWithBytes_same u8Tag p, if_pos rfl, List.drop_left]
    rfl
  | w16 =>
    simp only [IntWidth.tag]
    rw [makeSeed_append93]
    unfold makeSeedGo
    rw [endsWithByte_append (u16Tag ++ p) 93, if_pos rfl, dropLastByte_append]
    dsimp only
    have e1 : startsWithBytes u8Tag (u16Tag ++ p) = false := rfl
    rw [e1, if_neg Bool.false_ne_true]
    rw [startsWithBytes_same u16Tag p, if_pos rfl, List.drop_left]
    rfl
  | w32 =>
    simp only [IntWidth.tag]
    rw [makeSeed_append93]
    unfold makeSeedGo
    rw [endsWithByte_append (u32Tag ++ p) 93, if_pos rfl, dropLastByte_append]
    dsimp only
    have e1 : startsWithBytes u8Tag (u32Tag ++ p) = false := rfl
    have e2 : startsWithBytes u16Tag (u32Tag ++ p) = false := rfl
    rw [e1, if_neg Bool.false_ne_true]
    rw [e2, if_neg Bool.false_ne_true]
    rw [startsWithBytes_same u32Tag p, if_pos rfl, List.drop_left]
    rfl
  | w64 =>
    simp only [IntWidth.tag]
    rw [makeSeed_append93]
    unfold makeSeedGo
    rw [endsWithByte_append (u64Tag ++ p) 93, if_pos rfl, dropLastByte_append]
    dsimp only
    have e1 : startsWithBytes u8Tag (u64Tag ++ p) = false := rfl
    have e2 : startsWithBytes u16Tag (u64Tag ++ p) = false := rfl
    have e3 : startsWithBytes u32Tag (u64Tag ++ p) = false := rfl
    rw [e1, if_neg Bool.false_ne_true]
    rw [e2, if_neg Bool.false_ne_true]
    rw [e3, if_neg Bool.false_ne_true]
    rw [startsWithBytes_same u64Tag p, if_pos rfl, List.drop_left]
    rfl

theorem makeSeed_stringLit (H : List Nat → List Nat) (p : List Nat) :
    makeSeed H (stringTag ++ p ++ [93]) = .ok p := by
  rw [makeSeed_append93]
  unfold makeSeedGo
  rw [endsWithByte_append (stringTag ++ p) 93, if_pos rfl, dropLastByte_append]
  dsimp only
  have e1 : startsWithBytes u8Tag (stringTag ++ p) = false := rfl
  have e2 : startsWithBytes u16Tag (stringTag ++ p) = false := rfl
  have e3 : startsWithBytes u32Tag (stringTag ++ p) = false := rfl
  have e4 : startsWithBytes u64Tag (stringTag ++ p) = false := rfl
  rw [e1, if_neg Bool.false_ne_true]
  rw [e2, if_neg Bool.false_ne_true]
  rw [e3, if_neg Bool.false_ne_true]
  rw [e4, if_neg Bool.false_ne_true]
  rw [startsWithBytes_same stringTag p, if_pos rfl, List.drop_left]

theorem makeSeed_sha256Lit (H : List Nat → List Nat) (x : List Nat) :
    makeSeed H (sha256Tag ++ x ++ [93]) =
      (match makeSeed H x with
       | .ok b => .ok (H b)
       | o => o) := by
  rw [makeSeed_append93]
  unfold makeSeedGo
  rw [endsWithByte_append (sha256Tag ++ x) 93, if_pos rfl, dropLastByte_append]
  dsimp only
  have e1 : startsWithBytes u8Tag (sha256Tag ++ x) = false := rfl
  have e2 : startsWithBytes u16Tag (sha256Tag ++ x) = false := rfl
  have e3 : startsWithBytes u32Tag (sha256Tag ++ x) = false := rfl
  have e4 : startsWithBytes u64Tag (sha256Tag ++ x) = false := rfl
  have e5 : startsWithBytes stringTag (sha256Tag ++ x) = false := rfl
  have e6 : startsWithBytes pubkeyTag (sha256Tag ++ x) = false := rfl
  rw [e1, if_neg Bool.false_ne_true]
  rw [e2, if_neg Bool.false_ne_true]
  rw [e3, if_neg Bool.false_ne_true]
  rw [e4, if_neg Bool.false_ne_true]
  rw [e5, if_neg Bool.false_ne_true]
  rw [e6, if_neg Bool.false_ne_true]
  rw [startsWithBytes_same sha256Tag x, if_pos rfl, List.drop_left]
  rw [makeSeedGo_fuel H (sha256Tag ++ x).length x x.length (by simp) (le_refl _)]
  rfl

/-- C5: encoding a `Sha256[..]` literal first encodes the nested literal
(recursively, `x` ranges over arbitrary nested literal strings) and
yields exactly the digest of that nested encoding; in particular
`Sha256[u8[10]]` encodes to the digest of the single byte `0x0A`. -/
theorem claim_C5 (H : List Nat → List Nat) (x : List Nat) :
    makeSeed H (strBytes "Sha256[" ++ x ++ [93]) =
      (match makeSeed H x with
       | .ok b => .ok (H b)
       | o => o)
    ∧ makeSeed H (strBytes "Sha256[u8[10]]") = .ok (H [10]) :=
  ⟨makeSeed_sha256Lit H x, rfl⟩

/-- C10: integer-list seed encoding only depends on the payload with all
ASCII spaces removed — the source strips spaces before splitting on
commas and parsing — so inserting spaces anywhere in the payload leaves
the encoding unchanged; in particular `u8[1, 2]` and `u8[1,2]` encode
identically. -/
theorem claim_C10 (H : List Nat → List Nat) (W : IntWidth) (p q : List Nat)
    (hpq : removeSpaces p = removeSpaces q) :
    makeSeed H (W.tag ++ p ++ [93]) = makeSeed H (W.tag ++ q ++ [93])
    ∧ makeSeed H (strBytes "u8[1, 2]") = makeSeed H (strBytes "u8[1,2]") := by
  refine ⟨?_, rfl⟩
  rw [makeSeed_intLit, makeSeed_intLit, hpq]

theorem toLeBytes_spec (nb : Nat) :
    ∀ v, toLeBytes nb v = (List.range nb).map (fun i => v / 256 ^ i % 256) := by
  induction nb with
  | zero => intro v; rfl
  | succ n ih =>
    intro v
    rw [toLeBytes, List.range_succ_eq_map, List.map_cons]
    congr 1
    · simp
    · rw [ih (v / 256), List.map_map]
      apply List.map_congr_left
      intro i _
      simp only [Function.comp]
      rw [Nat.div_div_eq_div_mul]
      congr 2
      rw [Nat.pow_succ]
      ring

theorem foldl10_le (ds : List Nat) :
    ∀ acc : Nat, acc ≤ ds.foldl (fun a d => a * 10 + d) acc := by
  induction ds with
  | nil => intro acc; exact le_refl _
  | cons d ds ih =>
    intro acc
    calc acc ≤ acc * 10 + d := by omega
      _ ≤ _ := ih _

theorem parseUIntDigits_digits (w : Nat) (ds : List Nat) :
    ∀ acc, (∀ d ∈ ds, d < 10) →
      ds.foldl (fun a d => a * 10 + d) acc < 2 ^ w →
      parseUIntDigits w acc (ds.map (fun d => d + 48)) =
        .ok (ds.foldl (fun a d => a * 10 + d) acc) := by
  induction ds with
  | nil => intro acc _ _; rfl
  | cons d ds ih =>
    intro acc hd hbound
    have hd0 : d < 10 := hd d (List.mem_cons_self _ _)
    rw [List.map_cons, parseUIntDigits, if_pos (by omega)]
    have hsub : d + 48 - 48 = d := by omega
    rw [hsub, List.foldl_cons] at *
    rw [if_pos (lt_of_le_of_lt (foldl10_le ds (acc * 10 + d)) hbound)]
    exact ih (acc * 10 + d) (fun e he => hd e (List.mem_cons_of_mem _ he)) hbound

theorem stripPlus_cons_ne (b : Nat) (r : List Nat) (hb : b ≠ 43) :
    stripPlus (b :: r) = b :: r := by
  rw [stripPlus, if_neg hb]

theorem natToDec_mem (v : Nat) : ∀ b ∈ natToDec v, 48 ≤ b ∧ b ≤ 57 := by
  intro b hb
  rw [natToDec] at hb
  by_cases h0 : v = 0
  · rw [if_pos h0] at hb
    simp at hb
    omega
  · rw [if_neg h0] at hb
    simp only [List.mem_map, List.mem_reverse] at hb
    obtain ⟨d, hd, rfl⟩ := hb
    have := toDigitsLE_lt 10 (by omega) v v d hd
    omega

theorem parseUIntE_natToDec (w v : Nat) (hv : v < 2 ^ w) :
    parseUIntE w (natToDec v) = .ok v := by
  by_cases h0 : v = 0
  · subst h0
    rw [natToDec, if_pos rfl]
    show parseUIntDigits w 0 [48] = .ok 0
    have := parseUIntDigits_digits w [0] 0 (by simp) (by simp)
    simpa using this
  · rw [natToDec, if_neg h0]
    have hne : toDigitsLE 10 v v ≠ [] := by
      rw [Ne, toDigitsLE_eq_nil_iff 10 v v (le_refl v)]
      exact h0
    obtain ⟨b, bs, hbs⟩ : ∃ b bs, (toDigitsLE 10 v v).reverse = b :: bs := by
      rcases h : (toDigitsLE 10 v v).reverse with _ | ⟨b, bs⟩
      · exact absurd (by simpa using h) hne
      · exact ⟨b, bs, rfl⟩
    have hblt : b < 10 := by
      have : b ∈ (toDigitsLE 10 v v).reverse := by rw [hbs]; simp
      exact toDigitsLE_lt 10 (by omega) v v b (List.mem_reverse.mp this)
    have hmap : (toDigitsLE 10 v v).reverse.map (fun d => d + 48) =
        (b + 48) :: bs.map (fun d => d + 48) := by
      rw [hbs, List.map_cons]
    rw [hmap, parseUIntE, stripPlus_cons_ne _ _ (by omega)]
    show parseUIntDigits w 0 ((b + 48) :: List.map (fun d => d + 48) bs) =
      Except.ok v
    rw [← hmap]
    have hfold : (toDigitsLE 10 v v).reverse.foldl (fun a d => a * 10 + d) 0 = v := by
      rw [foldl_reverse_ofDigitsLE 10 (toDigitsLE 10 v v) 0,
        ofDigitsLE_toDigitsLE 10 (by omega) v v (le_refl v)]
      simp
    rw [parseUIntDigits_digits w (toDigitsLE 10 v v).reverse 0
      (fun d hd => toDigitsLE_lt 10 (by omega) v v d (List.mem_reverse.mp hd))
      (by rw [hfold]; exact hv), hfold]

theorem mapM_parseE_natToDec (w : Nat) (vs : List Nat)
    (hv : ∀ v ∈ vs, v < 2 ^ w) :
    (vs.map natToDec).mapM (parseUIntE w) = .ok vs := by
  induction vs with
  | nil => rfl
  | cons v vs ih =>
    rw [List.map_cons, List.mapM_cons,
      parseUIntE_natToDec w v (hv v (List.mem_cons_self _ _)),
      ih (fun x hx => hv x (List.mem_cons_of_mem _ hx))]
    rfl

theorem mapM_parseO_natToDec (w : Nat) (vs : List Nat)
    (hv : ∀ v ∈ vs, v < 2 ^ w) :
    (vs.map natToDec).mapM (parseUInt w) = some vs := by
  induction vs with
  | nil => rfl
  | cons v vs ih =>
    rw [List.map_cons, List.mapM_cons]
    rw [parseUInt, parseUIntE_natToDec w v (hv v (List.mem_cons_self _ _))]
    rw [ih (fun x hx => hv x (List.mem_cons_of_mem _ hx))]
    rfl

theorem intercalate44_cons_cons (a b : List Nat) (ls : List (List Nat)) :
    List.intercalate [44] (a :: b :: ls) =
      a ++ 44 :: List.intercalate [44] (b :: ls) := by
  simp [List.intercalate, List.intersperse_cons_cons]

theorem mem_intercalate44 (ls : List (List Nat)) :
    ∀ x ∈ List.intercalate [44] ls, x = 44 ∨ ∃ l ∈ ls, x ∈ l := by
  induction ls with
  | nil => intro x hx; simp [List.intercalate] at hx
  | cons a ls ih =>
    cases ls with
    | nil =>
      intro x hx
      simp only [List.intercalate, List.intersperse_single, List.flatten] at hx
      exact Or.inr ⟨a, by simp, by simpa using hx⟩
    | cons b ls' =>
      intro x hx
      rw [intercalate44_cons_cons] at hx
      rcases List.mem_append.mp hx with h | h
      · exact Or.inr ⟨a, by simp, h⟩
      · rcases List.mem_cons.mp h with h | h
        · exact Or.inl h
        · rcases ih x h with h | ⟨l, hl, hxl⟩
          · exact Or.inl h
          · exact Or.inr ⟨l, List.mem_cons_of_mem _ hl, hxl⟩

theorem removeSpaces_natToDec_intercalate (vs : List Nat) :
    removeSpaces (List.intercalate [44] (vs.map natToDec)) =
      List.intercalate [44] (vs.map natToDec) := by
  rw [removeSpaces, List.filter_eq_self]
  intro b hb
  rcases mem_intercalate44 _ b hb with h | ⟨l, hl, hbl⟩
  · simp [h]
  · obtain ⟨v, _, rfl⟩ := List.mem_map.mp hl
    have := natToDec_mem v b hbl
    simp
    omega

theorem splitOn_natToDec_intercalate (vs : List Nat) (hvs : vs ≠ []) :
    (List.intercalate [44] (vs.map natToDec)).splitOn 44 = vs.map natToDec := by
  apply List.splitOn_intercalate
  · intro l hl hmem
    obtain ⟨v, _, rfl⟩ := List.mem_map.mp hl
    have := natToDec_mem v 44 hmem
    omega
  · simpa using hvs

theorem flatten_toLeBytes_one (vs : List Nat) (hv : ∀ v ∈ vs, v < 256) :
    (vs.map (toLeBytes 1)).flatten = vs := by
  induction vs with
  | nil => rfl
  | cons v vs ih =>
    rw [List.map_cons, List.flatten_cons,
      ih (fun x hx => hv x (List.mem_cons_of_mem _ hx))]
    show v % 256 :: vs = v :: vs
    rw [Nat.mod_eq_of_lt (hv v (List.mem_cons_self _ _))]

theorem mapM_except_error (f : List Nat → Except String Nat) :
    ∀ l : List (List Nat), (∃ t ∈ l, ∃ m, f t = .error m) →
      ∃ e, l.mapM f = .error e := by
  intro l
  induction l with
  | nil => rintro ⟨t, ht, _⟩; simp at ht
  | cons a l ih =>
    rintro ⟨t, ht, m, hm⟩
    rw [List.mapM_cons]
    rcases List.mem_cons.mp ht with rfl | ht'
    · exact ⟨m, by rw [hm]; rfl⟩
    · cases hfa : f a with
      | error e => exact ⟨e, rfl⟩
      | ok v =>
        obtain ⟨e, he⟩ := ih ⟨t, ht', m, hm⟩
        refine ⟨e, ?_⟩
        rw [he]
        rfl

theorem mapM_option_none {α β : Type} (f : α → Option β) :
    ∀ l : List α, (∃ t ∈ l, f t = none) → l.mapM f = none := by
  intro l
  induction l with
  | nil => rintro ⟨t, ht, _⟩; simp at ht
  | cons a l ih =>
    rintro ⟨t, ht, hm⟩
    rw [List.mapM_cons]
    rcases List.mem_cons.mp ht with rfl | ht'
    · rw [hm]; rfl
    · cases hfa : f a with
      | none => rfl
      | some v =>
        rw [ih ⟨t, ht', hm⟩]
        rfl

/-- C7 (amended): an out-of-range or non-numeric token in an
integer-list literal is never silently clamped and produces no partial
encoding — but only `u8_list_to_vec` reports a distinct error value, and
only to its immediate caller `make_seed`, which unwraps it; `make_seed`
itself panics (aborting the process) for every width rather than
returning an error value to its own caller. -/
theorem claim_C7 (H : List Nat → List Nat) (W : IntWidth) (payload t : List Nat)
    (msg : String) (ht : t ∈ (removeSpaces payload).splitOn 44)
    (herr : parseUIntE W.bits t = .error msg) :
    makeSeed H (W.tag ++ payload ++ [93]) = .panicked
    ∧ (∀ bytes, makeSeed H (W.tag ++ payload ++ [93]) ≠ .ok bytes)
    ∧ (W = .w8 → ∃ e, u8ListToVec payload = .error e) := by
  have h1 : makeSeed H (W.tag ++ payload ++ [93]) = .panicked := by
    rw [makeSeed_intLit]
    cases W with
    | w8 =>
      have herr' : parseUIntE 8 t = .error msg := herr
      obtain ⟨e, he⟩ := mapM_except_error (parseUIntE 8)
        ((removeSpaces payload).splitOn 44) ⟨t, ht, msg, herr'⟩
      simp only [intBranch]
      rw [he]
    | w16 =>
      have hO : parseUInt 16 t = none := by
        rw [parseUInt, show parseUIntE 16 t = .error msg from herr]
        rfl
      simp only [intBranch]
      rw [mapM_option_none (parseUInt 16) ((removeSpaces payload).splitOn 44) ⟨t, ht, hO⟩]
    | w32 =>
      have hO : parseUInt 32 t = none := by
        rw [parseUInt, show parseUIntE 32 t = .error msg from herr]
        rfl
      simp only [intBranch]
      rw [mapM_option_none (parseUInt 32) ((removeSpaces payload).splitOn 44) ⟨t, ht, hO⟩]
    | w64 =>
      have hO : parseUInt 64 t = none := by
        rw [parseUInt, show parseUIntE 64 t = .error msg from herr]
        rfl
      simp only [intBranch]
      rw [mapM_option_none (parseUInt 64) ((removeSpaces payload).splitOn 44) ⟨t, ht, hO⟩]
  refine ⟨h1, fun bytes hc => ?_, fun hW => ?_⟩
  · rw [h1] at hc
    exact SeedOutcome.noConfusion hc
  · subst hW
    have herr' : parseUIntE 8 t = .error msg := herr
    exact mapM_except_error (parseUIntE 8) ((removeSpaces payload).splitOn 44)
      ⟨t, ht, msg, herr'⟩

theorem claim_C7_witness :
    strBytes "65536" ∈ (removeSpaces (strBytes "65536")).splitOn 44 ∧
    parseUIntE IntWidth.w16.bits (strBytes "65536") =
      .error "number too large to fit in target type" ∧
    (makeSeed (fun l => l) (IntWidth.w16.tag ++ strBytes "65536" ++ [93]) = .panicked
      ∧ (∀ bytes, makeSeed (fun l => l) (IntWidth.w16.tag ++ strBytes "65536" ++ [93]) ≠
          .ok bytes)
      ∧ (IntWidth.w16 = .w8 → ∃ e, u8ListToVec (strBytes "65536") = .error e)) :=
  ⟨by decide, rfl,
    claim_C7 (fun l => l) IntWidth.w16 (strBytes "65536") (strBytes "65536")
      "number too large to fit in target type" (by decide) rfl⟩

/-- C7 counterexample: encoding the literal `u16[65536]` (an
out-of-range token) makes `make_seed` panic — the `.unwrap()` on the
failed `u16` parse aborts the process — so the encoding is not "a parse
failure reported to the caller as a distinct, inspectable error value":
no value of any kind is returned to `make_seed`'s caller. -/
theorem claim_C7_counterexample :
    makeSeed (fun l => l) (strBytes "u16[65536]") = .panicked := rfl

/-- C6: an in-range unsigned-integer-list literal (here rendered from the
numeric values `vs`, comma-separated decimal) encodes each value as
exactly `W/8` little-endian bytes (`byte i` is `v / 256^i % 256`),
concatenated in list order; and a `String[..]` literal encodes to exactly
the UTF-8 bytes of its payload (which the byte model carries directly),
with no length prefix or terminator. -/
theorem claim_C6 (H : List Nat → List Nat) (W : IntWidth) (vs : List Nat)
    (hvs : vs ≠ []) (hv : ∀ v ∈ vs, v < 2 ^ W.bits) :
    makeSeed H (W.tag ++ List.intercalate [44] (vs.map natToDec) ++ [93]) =
      .ok ((vs.map (fun v => (List.range W.nbytes).map
          (fun i => v / 256 ^ i % 256))).flatten)
    ∧ ∀ payload : List Nat,
        makeSeed H (strBytes "String[" ++ payload ++ [93]) = .ok payload := by
  refine ⟨?_, fun payload => makeSeed_stringLit H payload⟩
  rw [makeSeed_intLit, removeSpaces_natToDec_intercalate]
  have hflat : (vs.map (toLeBytes W.nbytes)).flatten =
      (vs.map (fun v => (List.range W.nbytes).map
        (fun i => v / 256 ^ i % 256))).flatten := by
    congr 1
    exact List.map_congr_left fun v _ => toLeBytes_spec W.nbytes v
  cases W with
  | w8 =>
    simp only [intBranch, splitOn_natToDec_intercalate vs hvs,
      mapM_parseE_natToDec 8 vs (by simpa [IntWidth.bits] using hv)]
    rw [← hflat]
    simp only [IntWidth.nbytes]
    rw [flatten_toLeBytes_one vs (by simpa [IntWidth.bits] using hv)]
  | w16 =>
    simp only [intBranch, splitOn_natToDec_intercalate vs hvs,
      mapM_parseO_natToDec 16 vs (by simpa [IntWidth.bits] using hv)]
    rw [← hflat]
    rfl
  | w32 =>
    simp only [intBranch, splitOn_natToDec_intercalate vs hvs,
      mapM_parseO_natToDec 32 vs (by simpa [IntWidth.bits] using hv)]
    rw [← hflat]
    rfl
  | w64 =>
    simp only [intBranch, splitOn_natToDec_intercalate vs hvs,
      mapM_parseO_natToDec 64 vs (by simpa [IntWidth.bits] using hv)]
    rw [← hflat]
    rfl

theorem claim_C6_witness :
    ([1, 256] : List Nat) ≠ [] ∧ (∀ v ∈ ([1, 256] : List Nat), v < 2 ^ IntWidth.w16.bits) ∧
    (makeSeed (fun l => l)
        (IntWidth.w16.tag ++ List.intercalate [44] ([1, 256].map natToDec) ++ [93]) =
      .ok (([1, 256].map (fun v => (List.range IntWidth.w16.nbytes).map
          (fun i => v / 256 ^ i % 256))).flatten)
      ∧ ∀ payload : List Nat,
          makeSeed (fun l => l) (strBytes "String[" ++ payload ++ [93]) = .ok payload) :=
  ⟨by decide, by decide,
    claim_C6 (fun l => l) IntWidth.w16 [1, 256] (by decide) (by decide)⟩

theorem claim_C10_witness :
    removeSpaces (strBytes "13, 7,2") = removeSpaces (strBytes "13,7 , 2") ∧
    (makeSeed (fun l => l) (IntWidth.w16.tag ++ strBytes "13, 7,2" ++ [93]) =
        makeSeed (fun l => l) (IntWidth.w16.tag ++ strBytes "13,7 , 2" ++ [93])
      ∧ makeSeed (fun l => l) (strBytes "u8[1, 2]") =
          makeSeed (fun l => l) (strBytes "u8[1,2]")) :=
  ⟨by decide, claim_C10 (fun l => l) IntWidth.w16 _ _ (by decide)⟩

theorem mapM_option_append {α β : Type} (f : α → Option β) :
    ∀ (l1 l2 : List α) (v1 v2 : List β), l1.mapM f = some v1 →
      l2.mapM f = some v2 → (l1 ++ l2).mapM f = some (v1 ++ v2) := by
  intro l1
  induction l1 with
  | nil =>
    intro l2 v1 v2 h1 h2
    have hv1 : v1 = [] := by
      have h' : (some ([] : List β) : Option (List β)) = some v1 := h1
      exact (Option.some_injective _ h').symm
    subst hv1
    simpa using h2
  | cons a l ih =>
    intro l2 v1 v2 h1 h2
    rw [List.mapM_cons] at h1
    cases hfa : f a with
    | none => rw [hfa] at h1; simp at h1
    | some x =>
      rw [hfa] at h1
      cases hml : l.mapM f with
      | none => rw [hml] at h1; simp at h1
      | some xs =>
        rw [hml] at h1
        have hv1 : v1 = x :: xs := by simpa using h1.symm
        subst hv1
        rw [List.cons_append, List.mapM_cons, hfa, ih l2 xs v2 hml h2]
        rfl

theorem b58Digit_alpha : ∀ d, d < 58 → b58Digit (b58Alphabet.getD d 0) = some d := by
  decide

theorem alpha_ne_49 : ∀ d, d < 58 → d ≠ 0 →
    ((b58Alphabet.getD d 0) == 49) = false := by
  decide

theorem mapM_b58_replicate49 : ∀ z : Nat,
    (List.replicate z 49).mapM b58Digit = some (List.replicate z 0) := by
  intro z
  induction z with
  | zero => rfl
  | succ n ih =>
    rw [List.replicate_succ, List.mapM_cons, show b58Digit 49 = some 0 by decide, ih]
    rfl

theorem mapM_b58_alpha : ∀ ds : List Nat, (∀ d ∈ ds, d < 58) →
    (ds.map (fun d => b58Alphabet.getD d 0)).mapM b58Digit = some ds := by
  intro ds
  induction ds with
  | nil => intro _; rfl
  | cons d ds ih =>
    intro h
    rw [List.map_cons, List.mapM_cons, b58Digit_alpha d (h d (List.mem_cons_self _ _)),
      ih (fun e he => h e (List.mem_cons_of_mem _ he))]
    rfl

theorem foldl_base_replicate_zero (base : Nat) : ∀ (z : Nat) (l : List Nat),
    List.foldl (fun a d => a * base + d) 0 (List.replicate z 0 ++ l) =
      List.foldl (fun a d => a * base + d) 0 l := by
  intro z
  induction z with
  | zero => intro l; rfl
  | succ n ih =>
    intro l
    rw [List.replicate_succ, List.cons_append, List.foldl_cons]
    have h0 : (0 : Nat) * base + 0 = 0 := by omega
    rw [h0]
    exact ih l

theorem takeWhile_replicate_append (p : Nat → Bool) (c : Nat) (hp : p c = true) :
    ∀ (z : Nat) (l : List Nat),
      (List.replicate z c ++ l).takeWhile p = List.replicate z c ++ l.takeWhile p := by
  intro z
  induction z with
  | zero => intro l; rfl
  | succ n ih =>
    intro l
    rw [List.replicate_succ, List.cons_append, List.takeWhile_cons_of_pos hp, ih]
    rfl

theorem beNat_ofDigitsLE (l : List Nat) : beNat l = ofDigitsLE 256 l.reverse := by
  rw [beNat]
  conv =>
    lhs
    rw [← List.reverse_reverse l]
  rw [foldl_reverse_ofDigitsLE 256 l.reverse 0]
  simp

/-- The core base-58 round trip, with the input presented as its leading
zero bytes and remainder. -/
theorem b58_roundtrip_core (z : Nat) (rest : List Nat)
    (hbytes : ∀ b ∈ rest, b < 256) (hhead : rest.head? ≠ some 0) :
    b58Decode (b58Encode (List.replicate z 0 ++ rest)) =
      .ok (List.replicate z 0 ++ rest) := by
  have hz : (List.replicate z 0 ++ rest).takeWhile (fun b => b == 0) =
      List.replicate z 0 := by
    rw [takeWhile_replicate_append _ 0 (by decide) z rest]
    have : rest.takeWhile (fun b => b == 0) = [] := by
      cases rest with
      | nil => rfl
      | cons r rs =>
        have hr : r ≠ 0 := by
          intro h0
          exact hhead (by rw [h0]; rfl)
        rw [List.takeWhile_cons_of_neg]
        simpa using hr
    rw [this, List.append_nil]
  have hval : beNat (List.replicate z 0 ++ rest) = ofDigitsLE 256 rest.reverse := by
    rw [beNat, foldl_base_replicate_zero 256 z rest, ← beNat, beNat_ofDigitsLE]
  have henc : b58Encode (List.replicate z 0 ++ rest) =
      List.replicate z 49 ++
        (toDigitsLE 58 (ofDigitsLE 256 rest.reverse) (ofDigitsLE 256 rest.reverse)).reverse.map
          (fun d => b58Alphabet.getD d 0) := by
    rw [b58Encode, hz, hval, List.length_replicate]
  set n := ofDigitsLE 256 rest.reverse with hn
  have hdlt : ∀ d ∈ toDigitsLE 58 n n, d < 58 := toDigitsLE_lt 58 (by omega) n n
  have hmap : (List.replicate z 49 ++
      (toDigitsLE 58 n n).reverse.map (fun d => b58Alphabet.getD d 0)).mapM b58Digit =
        some (List.replicate z 0 ++ (toDigitsLE 58 n n).reverse) :=
    mapM_option_append b58Digit _ _ _ _ (mapM_b58_replicate49 z)
      (mapM_b58_alpha (toDigitsLE 58 n n).reverse
        (fun d hd => hdlt d (List.mem_reverse.mp hd)))
  have hfold : ((List.replicate z 0 ++ (toDigitsLE 58 n n).reverse).foldl
      (fun acc d => acc * 58 + d) 0) = n := by
    rw [foldl_base_replicate_zero 58 z, foldl_reverse_ofDigitsLE 58 (toDigitsLE 58 n n) 0,
      ofDigitsLE_toDigitsLE 58 (by omega) n n (le_refl n)]
    simp
  have htw : ((List.replicate z 49 ++
      (toDigitsLE 58 n n).reverse.map (fun d => b58Alphabet.getD d 0)).takeWhile
        (fun c => c == 49)).length = z := by
    rw [takeWhile_replicate_append _ 49 (by decide) z]
    have : ((toDigitsLE 58 n n).reverse.map (fun d => b58Alphabet.getD d 0)).takeWhile
        (fun c => c == 49) = [] := by
      rcases hds : (toDigitsLE 58 n n).reverse with _ | ⟨h0, hs0⟩
      · rfl
      · have hlast : (toDigitsLE 58 n n).getLast? = some h0 := by
          rw [← List.head?_reverse, hds]
          rfl
        have hne : toDigitsLE 58 n n ≠ [] := by
          intro hnil
          rw [hnil] at hds
          simp at hds
        have h0ne : h0 ≠ 0 := by
          intro h00
          exact toDigitsLE_getLast?_ne_zero 58 (by omega) n n (le_refl n) hne
            (by rw [hlast, h00])
        have h0lt : h0 < 58 := hdlt h0 (List.mem_reverse.mp (by rw [hds]; simp))
        rw [List.map_cons, List.takeWhile_cons_of_neg]
        simp only [alpha_ne_49 h0 h0lt h0ne, Bool.false_eq_true, not_false_iff]
    rw [this, List.append_nil, List.length_replicate]
  have hback : toDigitsLE 256 n n = rest.reverse := by
    rw [hn]
    apply toDigitsLE_ofDigitsLE 256 (by omega) rest.reverse
      (fun d hd => hbytes d (List.mem_reverse.mp hd))
    · rw [List.getLast?_reverse]
      exact hhead
    · exact le_refl _
  rw [henc, b58Decode]
  rw [hmap]
  simp only [hfold, htw, hback, List.reverse_reverse]

theorem b58Decode_b58Encode (a : List Nat) (hbytes : ∀ b ∈ a, b < 256) :
    b58Decode (b58Encode a) = .ok a := by
  have hsplit : a = a.takeWhile (fun b => b == 0) ++ a.dropWhile (fun b => b == 0) :=
    (List.takeWhile_append_dropWhile (fun b => b == 0) a).symm
  have hrep : a.takeWhile (fun b => b == 0) =
      List.replicate (a.takeWhile (fun b => b == 0)).length 0 := by
    rw [List.eq_replicate_iff]
    exact ⟨rfl, fun b hb => by simpa using List.mem_takeWhile_imp hb⟩
  have hhead : (a.dropWhile (fun b => b == 0)).head? ≠ some 0 := by
    intro hc
    have hne : a.dropWhile (fun b => b == 0) ≠ [] := by
      intro h0
      rw [h0] at hc
      exact Option.noConfusion hc
    have hnot := List.head_dropWhile_not (fun b => b == 0) a hne
    have h0 : (a.dropWhile (fun b => b == 0)).head hne = 0 := by
      have h1 := List.head?_eq_head hne
      rw [h1] at hc
      exact Option.some_injective _ hc
    rw [h0] at hnot
    simp at hnot
  have hbr : ∀ b ∈ a.dropWhile (fun b => b == 0), b < 256 := by
    intro b hb
    exact hbytes b (hsplit ▸ List.mem_append.mpr (Or.inr hb))
  calc b58Decode (b58Encode a)
      = b58Decode (b58Encode (List.replicate (a.takeWhile (fun b => b == 0)).length 0
          ++ a.dropWhile (fun b => b == 0))) := by
        rw [← hrep, ← hsplit]
    _ = .ok (List.replicate (a.takeWhile (fun b => b == 0)).length 0
          ++ a.dropWhile (fun b => b == 0)) :=
        b58_roundtrip_core _ _ hbr hhead
    _ = .ok a := by rw [← hrep, ← hsplit]

/-- C8: base-58 decoding inverts base-58 encoding on every 32-byte
address, and `Pubkey::from_str` rejects, with a distinct error value,
any string containing a byte outside the base-58 alphabet as well as any
string whose decoding is not exactly 32 bytes — never truncating or
padding. -/
theorem claim_C8 (a : List Nat) (ha : a.length = 32) (hbytes : ∀ b ∈ a, b < 256) :
    Pubkey.fromStr (b58Encode a) = .ok a
    ∧ (∀ s : List Nat, (∃ c ∈ s, b58Digit c = none) →
        ∃ e, Pubkey.fromStr s = .error e)
    ∧ (∀ (s : List Nat) (v : List Nat), b58Decode s = .ok v → v.length ≠ 32 →
        Pubkey.fromStr s = .error "Invalid address") := by
  refine ⟨?_, ?_, ?_⟩
  · rw [Pubkey.fromStr, b58Decode_b58Encode a hbytes]
    show (if a.length = 32 then Except.ok a else Except.error "Invalid address") =
      Except.ok a
    rw [if_pos ha]
  · intro s hc
    have hnone : s.mapM b58Digit = none := mapM_option_none b58Digit s hc
    refine ⟨"provided string contained invalid character", ?_⟩
    rw [Pubkey.fromStr, b58Decode, hnone]
  · intro s v hdec hlen
    rw [Pubkey.fromStr, hdec]
    show (if v.length = 32 then Except.ok v else Except.error "Invalid address") =
      Except.error "Invalid address"
    rw [if_neg hlen]

theorem claim_C8_witness :
    (List.replicate 32 1).length = 32 ∧ (∀ b ∈ List.replicate 32 1, b < 256) ∧
    (Pubkey.fromStr (b58Encode (List.replicate 32 1)) = .ok (List.replicate 32 1)
      ∧ (∀ s : List Nat, (∃ c ∈ s, b58Digit c = none) →
          ∃ e, Pubkey.fromStr s = .error e)
      ∧ (∀ (s : List Nat) (v : List Nat), b58Decode s = .ok v → v.length ≠ 32 →
          Pubkey.fromStr s = .error "Invalid address")) :=
  ⟨by decide, by decide, claim_C8 (List.replicate 32 1) (by decide) (by decide)⟩

theorem p25519_pos : 0 < p25519 := by decide

theorem sqrtM1_sq : sqrtM1 * sqrtM1 % p25519 = p25519 - 1 := by decide

theorem half_two : ((p25519 + 1) / 2 * 2) % p25519 = 1 := by decide

theorem castM (a : Nat) : ((a % p25519 : Nat) : ZMod p25519) = a :=
  ZMod.natCast_mod a p25519

theorem castSub (b : Nat) (hb : b ≤ p25519) :
    ((p25519 - b : Nat) : ZMod p25519) = -(b : ZMod p25519) := by
  rw [Nat.cast_sub hb, ZMod.natCast_self]
  ring

theorem sqrtM1_cast_sq : (sqrtM1 : ZMod p25519) ^ 2 = -1 := by
  have h : ((sqrtM1 * sqrtM1 % p25519 : Nat) : ZMod p25519) =
      ((p25519 - 1 : Nat) : ZMod p25519) := by rw [sqrtM1_sq]
  rw [castM, Nat.cast_mul, castSub 1 (by decide), Nat.cast_one] at h
  rw [pow_two, h]

theorem zmod_two_cancel (c : ZMod p25519) (h : 2 * c = 0) : c = 0 := by
  have h2 : (((p25519 + 1) / 2 : Nat) : ZMod p25519) * 2 = 1 := by
    have hh : (((p25519 + 1) / 2 * 2 % p25519 : Nat) : ZMod p25519) =
        ((1 : Nat) : ZMod p25519) := by rw [half_two]
    rw [castM, Nat.cast_mul, Nat.cast_one] at hh
    have h2cast : ((2 : Nat) : ZMod p25519) = (2 : ZMod p25519) := by norm_cast
    rw [h2cast] at hh
    exact hh
  calc c = 1 * c := (one_mul c).symm
    _ = (((p25519 + 1) / 2 : Nat) : ZMod p25519) * 2 * c := by rw [h2]
    _ = (((p25519 + 1) / 2 : Nat) : ZMod p25519) * (2 * c) := by ring
    _ = 0 := by rw [h]; ring

theorem cast_negAbs_sq (x : Nat) (hx : x < p25519) :
    (((if x % 2 = 1 then (p25519 - x) % p25519 else x) : Nat) : ZMod p25519) ^ 2 =
      (x : ZMod p25519) ^ 2 := by
  by_cases hodd : x % 2 = 1
  · rw [if_pos hodd, castM, castSub x (le_of_lt hx)]
    ring
  · rw [if_neg hodd]

theorem sqrtAdjust_lt (u v r0 : Nat) (hr0 : r0 < p25519) :
    (sqrtAdjust u v r0).2 < p25519 := by
  unfold sqrtAdjust
  dsimp only
  split
  · split
    · exact Nat.mod_lt _ p25519_pos
    · exact Nat.mod_lt _ p25519_pos
  · split
    · exact Nat.mod_lt _ p25519_pos
    · exact hr0

theorem sqrtAdjust_sound (u v r0 : Nat) (hu : u < p25519) (hr0 : r0 < p25519)
    (h : (sqrtAdjust u v r0).1 = true) :
    (v : ZMod p25519) * ((sqrtAdjust u v r0).2 : ZMod p25519) ^ 2 =
      (u : ZMod p25519) := by
  unfold sqrtAdjust at h ⊢
  dsimp only at h ⊢
  rw [Bool.or_eq_true, decide_eq_true_eq, decide_eq_true_eq] at h
  have hcheck : ((v * (r0 * r0 % p25519) % p25519 : Nat) : ZMod p25519) =
      (v : ZMod p25519) * (r0 : ZMod p25519) ^ 2 := by
    rw [castM, Nat.cast_mul, castM, Nat.cast_mul, pow_two]
  have hnegu : (((p25519 - u % p25519) % p25519 : Nat) : ZMod p25519) =
      -(u : ZMod p25519) := by
    rw [castM, castSub (u % p25519) (le_of_lt (Nat.mod_lt _ p25519_pos)), castM]
  have humod : u % p25519 = u := Nat.mod_eq_of_lt hu
  have hm := sqrtM1_cast_sq
  by_cases hc : (decide (v * (r0 * r0 % p25519) % p25519 =
        (p25519 - u % p25519) % p25519)
      || decide (v * (r0 * r0 % p25519) % p25519 =
        (p25519 - u % p25519) % p25519 * sqrtM1 % p25519)) = true
  · rw [if_pos hc, cast_negAbs_sq (r0 * sqrtM1 % p25519) (Nat.mod_lt _ p25519_pos)]
    have hr1 : ((r0 * sqrtM1 % p25519 : Nat) : ZMod p25519) =
        (r0 : ZMod p25519) * (sqrtM1 : ZMod p25519) := by
      rw [castM, Nat.cast_mul]
    rw [hr1]
    rw [Bool.or_eq_true, decide_eq_true_eq, decide_eq_true_eq] at hc
    rcases hc with hflip | hflipI
    · have hA := congrArg (fun x : Nat => (x : ZMod p25519)) hflip
      simp only at hA
      rw [hcheck, hnegu] at hA
      calc (v : ZMod p25519) * ((r0 : ZMod p25519) * (sqrtM1 : ZMod p25519)) ^ 2
          = (v : ZMod p25519) * (r0 : ZMod p25519) ^ 2 *
            (sqrtM1 : ZMod p25519) ^ 2 := by ring
        _ = -(u : ZMod p25519) * -1 := by rw [hA, hm]
        _ = (u : ZMod p25519) := by ring
    · rcases h with hcorrect | hflip
      · have hA := congrArg (fun x : Nat => (x : ZMod p25519)) hcorrect
        have hB := congrArg (fun x : Nat => (x : ZMod p25519)) hflipI
        simp only at hA hB
        rw [hcheck, humod] at hA
        have hBm : (((p25519 - u % p25519) % p25519 * sqrtM1 % p25519 : Nat) :
            ZMod p25519) = -(u : ZMod p25519) * (sqrtM1 : ZMod p25519) := by
          rw [castM, Nat.cast_mul, hnegu]
        rw [hcheck, hBm] at hB
        have hum : (u : ZMod p25519) =
            -(u : ZMod p25519) * (sqrtM1 : ZMod p25519) := hA.symm.trans hB
        have hmu : (u : ZMod p25519) * (sqrtM1 : ZMod p25519) = (u : ZMod p25519) := by
          calc (u : ZMod p25519) * (sqrtM1 : ZMod p25519)
              = (-(u : ZMod p25519) * (sqrtM1 : ZMod p25519)) *
                (sqrtM1 : ZMod p25519) := by
                conv => lhs; rw [hum]
            _ = -((u : ZMod p25519) * (sqrtM1 : ZMod p25519) ^ 2) := by ring
            _ = -((u : ZMod p25519) * (-1)) := by rw [hm]
            _ = (u : ZMod p25519) := by ring
        have huneg : (u : ZMod p25519) = -(u : ZMod p25519) := by
          calc (u : ZMod p25519) = -(u : ZMod p25519) * (sqrtM1 : ZMod p25519) := hum
            _ = -((u : ZMod p25519) * (sqrtM1 : ZMod p25519)) := by ring
            _ = -(u : ZMod p25519) := by rw [hmu]
        have hu0 : (u : ZMod p25519) = 0 := by
          apply zmod_two_cancel
          calc (2 : ZMod p25519) * (u : ZMod p25519)
              = (u : ZMod p25519) + (u : ZMod p25519) := by ring
            _ = (u : ZMod p25519) + -(u : ZMod p25519) := by
                nth_rewrite 2 [huneg]
                rfl
            _ = 0 := by ring
        calc (v : ZMod p25519) * ((r0 : ZMod p25519) * (sqrtM1 : ZMod p25519)) ^ 2
            = (v : ZMod p25519) * (r0 : ZMod p25519) ^ 2 *
              (sqrtM1 : ZMod p25519) ^ 2 := by ring
          _ = (u : ZMod p25519) * -1 := by rw [hA, hm]
          _ = (u : ZMod p25519) := by rw [hu0]; ring
      · have hA := congrArg (fun x : Nat => (x : ZMod p25519)) hflip
        simp only at hA
        rw [hcheck, hnegu] at hA
        calc (v : ZMod p25519) * ((r0 : ZMod p25519) * (sqrtM1 : ZMod p25519)) ^ 2
            = (v : ZMod p25519) * (r0 : ZMod p25519) ^ 2 *
              (sqrtM1 : ZMod p25519) ^ 2 := by ring
          _ = -(u : ZMod p25519) * -1 := by rw [hA, hm]
          _ = (u : ZMod p25519) := by ring
  · rw [if_neg hc, cast_negAbs_sq r0 hr0]
    rcases h with hcorrect | hflip
    · have hA := congrArg (fun x : Nat => (x : ZMod p25519)) hcorrect
      simp only at hA
      rw [hcheck, humod] at hA
      exact hA
    · exact absurd (by simp [hflip]) hc

theorem sqrtRatioI_sound (u v : Nat) (hu : u < p25519)
    (h : (sqrtRatioI u v).1 = true) :
    (v : ZMod p25519) * ((sqrtRatioI u v).2 : ZMod p25519) ^ 2 =
      (u : ZMod p25519) := by
  unfold sqrtRatioI at h ⊢
  dsimp only at h ⊢
  exact sqrtAdjust_sound u v _ hu (Nat.mod_lt _ p25519_pos) h

theorem sqrtRatioI_lt (u v : Nat) : (sqrtRatioI u v).2 < p25519 := by
  unfold sqrtRatioI
  dsimp only
  exact sqrtAdjust_lt u v _ (Nat.mod_lt _ p25519_pos)

theorem decompress_curveEq (s : List Nat) (X Y Z T : Nat)
    (hd : decompress s = some (X, Y, Z, T)) :
    Z = 1 ∧ T = X * Y % p25519 ∧
      (Y : ZMod p25519) ^ 2 - (X : ZMod p25519) ^ 2 =
        1 + (edwardsD : ZMod p25519) * (X : ZMod p25519) ^ 2 *
          (Y : ZMod p25519) ^ 2 := by
  unfold decompress at hd
  dsimp only at hd
  generalize hy : ofDigitsLE 256 s % 2 ^ 255 % p25519 = y at hd
  rcases hsq : sqrtRatioI ((y * y % p25519 + (p25519 - 1)) % p25519)
      ((y * y % p25519 * edwardsD % p25519 + 1) % p25519) with ⟨flag, x0⟩
  rw [hsq] at hd
  cases flag with
  | false => exact Option.noConfusion hd
  | true =>
    injection hd with htup
    rw [Prod.ext_iff, Prod.ext_iff, Prod.ext_iff] at htup
    dsimp only at htup
    obtain ⟨hX, hY, hZ, hT⟩ := htup
    subst hX
    subst hY
    subst hZ
    subst hT
    refine ⟨rfl, rfl, ?_⟩
    have hx0lt : x0 < p25519 := by
      have h := sqrtRatioI_lt ((y * y % p25519 + (p25519 - 1)) % p25519)
        ((y * y % p25519 * edwardsD % p25519 + 1) % p25519)
      rw [hsq] at h
      exact h
    have hflag : (sqrtRatioI ((y * y % p25519 + (p25519 - 1)) % p25519)
        ((y * y % p25519 * edwardsD % p25519 + 1) % p25519)).1 = true := by
      rw [hsq]
    have hsound := sqrtRatioI_sound ((y * y % p25519 + (p25519 - 1)) % p25519)
      ((y * y % p25519 * edwardsD % p25519 + 1) % p25519)
      (Nat.mod_lt _ p25519_pos) hflag
    rw [hsq] at hsound
    dsimp only at hsound
    have hu_cast : (((y * y % p25519 + (p25519 - 1)) % p25519 : Nat) :
        ZMod p25519) = (y : ZMod p25519) ^ 2 - 1 := by
      rw [castM, Nat.cast_add, castM, Nat.cast_mul, castSub 1 (by decide),
        Nat.cast_one, pow_two]
      ring
    have hv_cast : (((y * y % p25519 * edwardsD % p25519 + 1) % p25519 : Nat) :
        ZMod p25519) = (edwardsD : ZMod p25519) * (y : ZMod p25519) ^ 2 + 1 := by
      rw [castM, Nat.cast_add, castM, Nat.cast_mul, castM, Nat.cast_mul,
        Nat.cast_one, pow_two]
      ring
    rw [hu_cast, hv_cast] at hsound
    have hXcast : (((if s.getD 31 0 / 128 % 2 = 1 then (p25519 - x0) % p25519
        else x0) : Nat) : ZMod p25519) ^ 2 = (x0 : ZMod p25519) ^ 2 := by
      by_cases hs : s.getD 31 0 / 128 % 2 = 1
      · rw [if_pos hs, castM, castSub x0 (le_of_lt hx0lt)]
        ring
      · rw [if_neg hs]
    rw [hXcast]
    linear_combination -hsound

/-- C9: the curve-membership test is total on 32-byte inputs: the
`from_slice` length guard never fires (no panic, `some r`), the result
is `true` exactly when the bytes decompress to a point, and any
decompressed point `(X, Y, Z, T)` is a valid extended twisted-Edwards
point: `Z = 1`, `T = X*Y`, and `-X^2 + Y^2 = 1 + d*X^2*Y^2` in the field
of order `2^255 - 19`. -/
theorem claim_C9 (b : List Nat) (hb : b.length = 32) :
    ∃ r : Bool, bytesAreCurvePoint b = some r
      ∧ (r = true ↔ ∃ point, decompress b = some point)
      ∧ ∀ X Y Z T, decompress b = some (X, Y, Z, T) →
          Z = 1 ∧ T = X * Y % p25519 ∧
          (Y : ZMod p25519) ^ 2 - (X : ZMod p25519) ^ 2 =
            1 + (edwardsD : ZMod p25519) * (X : ZMod p25519) ^ 2 *
              (Y : ZMod p25519) ^ 2 := by
  refine ⟨(decompress b).isSome, ?_, ?_, ?_⟩
  · rw [bytesAreCurvePoint, fromSlice32, if_pos hb]
    rfl
  · exact Option.isSome_iff_exists
  · intro X Y Z T hd
    exact decompress_curveEq b X Y Z T hd

theorem claim_C9_witness :
    (List.replicate 31 0 ++ [64]).length = 32 ∧
    (∃ r : Bool, bytesAreCurvePoint (List.replicate 31 0 ++ [64]) = some r
      ∧ (r = true ↔ ∃ point, decompress (List.replicate 31 0 ++ [64]) = some point)
      ∧ ∀ X Y Z T, decompress (List.replicate 31 0 ++ [64]) = some (X, Y, Z, T) →
          Z = 1 ∧ T = X * Y % p25519 ∧
          (Y : ZMod p25519) ^ 2 - (X : ZMod p25519) ^ 2 =
            1 + (edwardsD : ZMod p25519) * (X : ZMod p25519) ^ 2 *
              (Y : ZMod p25519) ^ 2) :=
  ⟨by decide, claim_C9 (List.replicate 31 0 ++ [64]) (by decide)⟩

end Solpda
